import Mathlib

/-!
# Verification of the SVG morph / caption-synchronization engine

Shallow embedding of the core of the `ditt_2` repository:

* `src/utils/svgMorpher.ts` — the `SVGMorpher` class (color parsing,
  interpolation, easing, transition computation, frame application);
* `src/components/player/SVGDisplay.tsx` — `displayStage`;
* `src/utils/textProcessing.ts` — `splitIntoSentences`, `splitIntoClauses`,
  `getClausesForSentence`, `calculateClauseTimings`;
* `src/components/SVGPlayer.old.tsx` — the active-clause scan inside
  `playStage` and the audio-element lifecycle of `playStage` / `handleStop`.

JavaScript numbers are modelled as exact rationals (`ℚ`), `NaN`-producing
paths as `Option`, and DOM documents as lists of elements carrying an id and
an attribute association list.
-/

namespace Ditt

/-! ## Caption Timing Engine: text processing (`textProcessing.ts`) -/

/-- ASCII whitespace recognised by the JavaScript `\s` class and `trim()`
(the repository's scripts only contain these whitespace characters). -/
def isWsChar (c : Char) : Bool :=
  c == ' ' || c == '\t' || c == '\n' || c == '\r' || c == '\x0b' || c == '\x0c'

/-- The clause-delimiting punctuation class `[!:;,.?]` of `splitIntoClauses`
and `getClausesForSentence`. -/
def isClausePunct (c : Char) : Bool :=
  c == '!' || c == ':' || c == ';' || c == ',' || c == '.' || c == '?'

/-- The sentence-delimiting punctuation class `[.!?]` of `splitIntoSentences`. -/
def isSentencePunct (c : Char) : Bool :=
  c == '.' || c == '!' || c == '?'

/-- Drop a leading run of whitespace (the `\s+` separator body). -/
def dropWs (l : List Char) : List Char := l.dropWhile isWsChar

/-- Prepend a character onto the first piece of a split result. -/
def consHead (c : Char) : List (List Char) → List (List Char)
  | [] => [[c]]
  | piece :: rest => (c :: piece) :: rest

/-- Does the list start with a whitespace character? -/
def wsHead : List Char → Bool
  | [] => false
  | c :: _ => isWsChar c

/-- Model of `str.split(/(?<=P)\s+/)` for a punctuation class `p`: a maximal
whitespace run whose immediately preceding character satisfies `p` is a
separator; the punctuation character stays at the end of its piece. -/
def rawSplit (p : Char → Bool) : List Char → List (List Char)
  | [] => [[]]
  | c :: rest =>
    if p c && wsHead rest then
      [c] :: rawSplit p (dropWs rest)
    else
      consHead c (rawSplit p rest)
termination_by l => l.length
decreasing_by
  · exact Nat.lt_succ_of_le ((List.dropWhile_sublist _).length_le)
  · simp

/-- Remove leading whitespace (half of JavaScript `trim()`). -/
def trimLeft (l : List Char) : List Char := l.dropWhile isWsChar

/-- Remove trailing whitespace (the other half of `trim()`). -/
def trimRight (l : List Char) : List Char := (l.reverse.dropWhile isWsChar).reverse

/-- JavaScript `String.prototype.trim`. -/
def trimChars (l : List Char) : List Char := trimLeft (trimRight l)

/-- Append characters to the last piece of a split result (a combinator
used to relate splits of a string and of its trimmed form). -/
def extLast (w : List Char) : List (List Char) → List (List Char)
  | [] => [w]
  | [piece] => [piece ++ w]
  | piece :: rest => piece :: extLast w rest

/-- The common `.map(x => x.trim()).filter(x => x.length > 0)` tail of the
three splitting functions. -/
def cleanup (ps : List (List Char)) : List (List Char) :=
  (ps.map trimChars).filter (fun x => !x.isEmpty)

/-- Function `splitIntoSentences` from `textProcessing.ts`. -/
def splitIntoSentences (script : String) : List String :=
  (cleanup (rawSplit isSentencePunct script.toList)).map String.mk

/-- Function `splitIntoClauses` from `textProcessing.ts`. -/
def splitIntoClauses (script : String) : List String :=
  (cleanup (rawSplit isClausePunct script.toList)).map String.mk

/-- Function `getClausesForSentence` from `textProcessing.ts` (same splitting as
`splitIntoClauses`, applied to a single sentence). -/
def getClausesForSentence (sentence : String) : List String :=
  (cleanup (rawSplit isClausePunct sentence.toList)).map String.mk

/-- Per-clause weight `Math.max(clause.length, 10)`. -/
def clauseWeight (clause : String) : ℚ := max (clause.length : ℚ) 10

/-- The accumulation loop of `calculateClauseTimings`: push the current
time, then advance it by `weight / totalWeight * duration`. -/
def timingsAux (total duration : ℚ) : List ℚ → ℚ → List ℚ
  | [], _ => []
  | w :: ws, currentTime =>
      currentTime :: timingsAux total duration ws (currentTime + w / total * duration)

/-- Function `calculateClauseTimings` from `textProcessing.ts`. -/
def calculateClauseTimings (clauses : List String) (duration : ℚ) : List ℚ :=
  let weights := clauses.map clauseWeight
  timingsAux weights.sum duration weights 0

/-- The clause scan of `playStage` (`SVGPlayer.old.tsx`): starting from
`clauseIdx = -1`, walk the timings and record the index while
`timings[i] <= t`, stopping at the first failure. -/
def findClauseAux (t : ℚ) : List ℚ → Int → Int
  | [], cur => cur
  | x :: rest, cur => if x ≤ t then findClauseAux t rest (cur + 1) else cur

/-- Active clause index for elapsed time `t` within a segment. -/
def findClauseIdx (t : ℚ) (timings : List ℚ) : Int := findClauseAux t timings (-1)

/-! ## Morph Engine (`svgMorpher.ts` and `SVGDisplay.tsx`)

A displayed SVG document is a list of elements; each element carries its
`id` attribute (`""` when absent, matching the falsy check `if (el.id)`)
and an attribute association list. -/

structure Elem where
  id : String
  attrs : List (String × String)
deriving DecidableEq, Repr

/-- DOM `Element.getAttribute` (attribute names are unique per element). -/
def getAttr (e : Elem) (name : String) : Option String :=
  (e.attrs.find? (fun kv => kv.1 == name)).map (·.2)

def setAttrList : List (String × String) → String → String → List (String × String)
  | [], n, v => [(n, v)]
  | kv :: rest, n, v => if kv.1 == n then (n, v) :: rest else kv :: setAttrList rest n v

/-- DOM `Element.setAttribute`. -/
def setAttr (e : Elem) (name value : String) : Elem :=
  { e with attrs := setAttrList e.attrs name value }

/-- Value of one hex digit, as `parseInt` reads a single character in base 16. -/
def hexDigitVal (c : Char) : Option Nat :=
  if '0' ≤ c ∧ c ≤ '9' then some (c.toNat - '0'.toNat)
  else if 'a' ≤ c ∧ c ≤ 'f' then some (c.toNat - 'a'.toNat + 10)
  else if 'A' ≤ c ∧ c ≤ 'F' then some (c.toNat - 'A'.toNat + 10)
  else none

/-- Accumulate hex digits, stopping at the first non-digit (the tail
behaviour of `parseInt(s, 16)`). -/
def parseHexAux : List Char → Nat → Nat
  | [], acc => acc
  | c :: rest, acc =>
    match hexDigitVal c with
    | some d => parseHexAux rest (acc * 16 + d)
    | none => acc

/-- A hex-digit run after the optional sign: `NaN` (`none`) when the first
character is not a hex digit. -/
def parseHexStart : List Char → Option Nat
  | [] => none
  | c :: rest =>
    match hexDigitVal c with
    | some d => some (parseHexAux rest d)
    | none => none

/-- Model of `parseInt(s, 16)`: skip leading whitespace, optional sign, then hex
digits; `none` models `NaN`. (The unused `0x`-prefix form is not modelled.) -/
def parseIntHex (l : List Char) : Option Int :=
  match l.dropWhile isWsChar with
  | '-' :: rest => (parseHexStart rest).map (fun n => -(n : Int))
  | '+' :: rest => (parseHexStart rest).map (fun n => (n : Int))
  | rest => (parseHexStart rest).map (fun n => (n : Int))

/-- The `{r, g, b}` record returned by `SVGMorpher.parseColor`; a channel is
`none` when `parseInt` produced `NaN`. -/
structure RGB where
  r : Option Int
  g : Option Int
  b : Option Int
deriving DecidableEq, Repr

/-- Model of `SVGMorpher.parseColor`: a string starting with `'#'` is sliced into
three hex pairs; every other string silently becomes white
`{255, 255, 255}`. -/
def parseColor (color : String) : RGB :=
  match color.toList with
  | '#' :: hex =>
    { r := parseIntHex (hex.take 2)
      g := parseIntHex ((hex.drop 2).take 2)
      b := parseIntHex ((hex.drop 4).take 2) }
  | _ => { r := some 255, g := some 255, b := some 255 }

/-- One channel of `interpolateColor`: `Math.round(c1 + (c2 - c1) * progress)`
(`Math.round` is `⌊x + 1/2⌋`, which is Mathlib's `round` on `ℚ`). -/
def chanInterp (c1 c2 : Option Int) (progress : ℚ) : Option Int :=
  match c1, c2 with
  | some a, some b => some (round ((a : ℚ) + ((b : ℚ) - (a : ℚ)) * progress))
  | _, _ => none

/-- JavaScript `Number.prototype.toString(16)` for the integral channel values
(`"NaN"` when the channel is `NaN`). -/
def chanHexString (c : Option Int) : String :=
  match c with
  | some i =>
    if i < 0 then "-" ++ String.mk (Nat.toDigits 16 i.natAbs)
    else String.mk (Nat.toDigits 16 i.toNat)
  | none => "NaN"

/-- JavaScript `.padStart(2, '0')`. -/
def padStart2 (s : String) : String :=
  if s.length < 2 then String.mk (List.replicate (2 - s.length) '0') ++ s else s

/-- Model of `SVGMorpher.interpolateColor`. -/
def interpolateColor (color1 color2 : String) (progress : ℚ) : String :=
  let c1 := parseColor color1
  let c2 := parseColor color2
  "#" ++ padStart2 (chanHexString (chanInterp c1.r c2.r progress))
      ++ padStart2 (chanHexString (chanInterp c1.g c2.g progress))
      ++ padStart2 (chanHexString (chanInterp c1.b c2.b progress))

/-- Model of `SVGMorpher.interpolateNumber`. -/
def interpolateNumber (start endVal progress : ℚ) : ℚ :=
  start + (endVal - start) * progress

/-- Model of `SVGMorpher.easeInOutCubic`:
`t < 0.5 ? 4·t³ : 1 − (−2·t + 2)³ / 2`. -/
def easeInOutCubic (t : ℚ) : ℚ :=
  if t < 1 / 2 then 4 * t * t * t else 1 - (-2 * t + 2) ^ 3 / 2

/-- Model of `parseFloat`: optional leading whitespace and sign, integer digits,
optional fractional digits; `none` models `NaN`. (Exponent forms never
occur in the generated attribute values and are not modelled.) -/
def parseFloatQ (s : String) : Option ℚ :=
  let l := s.toList.dropWhile isWsChar
  let signed : ℚ × List Char :=
    match l with
    | '-' :: rest => (-1, rest)
    | '+' :: rest => (1, rest)
    | rest => (1, rest)
  let intPart := signed.2.takeWhile (fun c => decide ('0' ≤ c ∧ c ≤ '9'))
  let l2 := signed.2.drop intPart.length
  let fracPart :=
    match l2 with
    | '.' :: rest => rest.takeWhile (fun c => decide ('0' ≤ c ∧ c ≤ '9'))
    | _ => []
  if intPart = [] ∧ fracPart = [] then none
  else
    some (signed.1 *
      ((intPart.foldl (fun acc c => acc * 10 + (c.toNat - '0'.toNat)) 0 : ℚ) +
        (fracPart.foldl (fun acc c => acc * 10 + (c.toNat - '0'.toNat)) 0 : ℚ) /
          (10 : ℚ) ^ fracPart.length))

/-- JavaScript `Number.prototype.toString` as used by `setAttribute(value.toString())`;
its exact decimal rendering is relied on only at integral values. -/
def numToString (q : ℚ) : String :=
  if q.den = 1 then toString q.num else toString q.num ++ "/" ++ toString q.den

/-- The `type` tag of a transition attribute entry. -/
inductive AttrKind | color | number
deriving DecidableEq, Repr

/-- One per-attribute entry of a `Transition`. -/
structure AttrTransition where
  name : String
  fromVal : String
  toVal : String
  kind : AttrKind
deriving DecidableEq, Repr

/-- One `Transition` of `SVGMorpher.morph` (the mutated element is
identified by its id, which is unique within the document). -/
structure Transition where
  elemId : String
  attributes : List AttrTransition
deriving DecidableEq, Repr

/-- The thirteen animatable attributes of `SVGMorpher.morph`. -/
def morphAttributes : List String :=
  ["cx", "cy", "r", "rx", "ry", "x", "y", "width", "height",
   "fill", "stroke", "opacity", "stroke-width"]

/-- Lookup `fromElements[id]` / `toElements[id]`: the JS objects are filled by
`forEach` assignment, so on duplicate ids the last element wins. -/
def objGet (els : List Elem) (i : String) : Option Elem :=
  els.reverse.find? (fun e => e.id == i)

/-- Key deduplication keeping the first occurrence (JS object key order). -/
def firstDedup : List String → List String
  | [] => []
  | x :: xs => x :: (firstDedup xs).filter (fun y => y != x)

/-- The iteration order of `for (const id in fromElements)`: nonempty ids in
first-insertion order. -/
def objKeys (els : List Elem) : List String :=
  firstDedup ((els.map (·.id)).filter (fun i => i != ""))

/-- The body of the attribute loop of `morph` for one attribute name: an
entry when the attribute is present on both sides with different raw
values, with kind `color` exactly for `fill` and `stroke`. -/
def attrEntryFor (fromEl toEl : Elem) (attr : String) : Option AttrTransition :=
  match getAttr fromEl attr, getAttr toEl attr with
  | some fromVal, some toVal =>
    if fromVal ≠ toVal then
      some { name := attr, fromVal := fromVal, toVal := toVal,
             kind := if attr = "fill" ∨ attr = "stroke" then .color else .number }
    else none
  | _, _ => none

/-- The attribute diff of `morph` for one matched element pair. -/
def attrEntries (fromEl toEl : Elem) : List AttrTransition :=
  morphAttributes.filterMap (attrEntryFor fromEl toEl)

/-- The body of the `for (const id in fromElements)` loop of `morph`: the
transition produced for one identity token (none when the token has no
counterpart in the target or no attribute differs). -/
def transitionForKey (fromEls toEls : List Elem) (i : String) : Option Transition :=
  match objGet fromEls i, objGet toEls i with
  | some fromEl, some toEl =>
    let entries := attrEntries fromEl toEl
    if entries ≠ [] then some { elemId := i, attributes := entries } else none
  | _, _ => none

/-- The transition set computed by `SVGMorpher.morph` before animating. -/
def computeTransitions (fromEls toEls : List Elem) : List Transition :=
  (objKeys fromEls).filterMap (transitionForKey fromEls toEls)

/-- The generator's invariant on one diagram: identity tokens (nonempty
ids) are unique within the document. -/
def idsNodup (els : List Elem) : Prop :=
  ((els.map (fun e => e.id)).filter (fun i => i != "")).Nodup

/-- Application of one attribute entry at eased progress `p` (the body of
the per-frame `animate` callback for one attribute). -/
def applyAttrTransition (e : Elem) (a : AttrTransition) (p : ℚ) : Elem :=
  match a.kind with
  | .color => setAttr e a.name (interpolateColor a.fromVal a.toVal p)
  | .number =>
    match parseFloatQ a.fromVal, parseFloatQ a.toVal with
    | some f, some t => setAttr e a.name (numToString (interpolateNumber f t p))
    | _, _ => setAttr e a.name "NaN"

/-- Application of one `Transition` to the displayed document: mutate the
element the transition references (found by its unique id). -/
def applyTransition (doc : List Elem) (tr : Transition) (p : ℚ) : List Elem :=
  doc.map (fun e =>
    if e.id == tr.elemId then
      tr.attributes.foldl (fun acc a => applyAttrTransition acc a p) e
    else e)

/-- One full frame of the `animate` callback at eased progress `p`. -/
def applyFrame (doc : List Elem) (trs : List Transition) (p : ℚ) : List Elem :=
  trs.foldl (fun d tr => applyTransition d tr p) doc

/-- The per-element effect of one frame: since element mutation preserves
the id, `applyFrame` acts elementwise as this function (proved in
`applyFrame_eq_map`). -/
def elemFrame (trs : List Transition) (p : ℚ) (e : Elem) : Elem :=
  trs.foldl (fun acc tr =>
    if acc.id == tr.elemId then
      tr.attributes.foldl (fun acc2 a => applyAttrTransition acc2 a p) acc
    else acc) e

/-- The displayed document when the animation finishes: `morph` never
replaces the document — the last frame fires at `rawProgress = 1`
(eased progress `easeInOutCubic 1`), the frame loop stops, and the
(absent) completion callback would be invoked. Since every frame
overwrites the same attributes from the same captured endpoint strings,
this equals the source document after the final frame alone. -/
def morphFinal (fromDoc toDoc : List Elem) : List Elem :=
  applyFrame fromDoc (computeTransitions fromDoc toDoc) (easeInOutCubic 1)

/-- Model of `SVGDisplay.displayStage`, observed at the end of any started
animation: with `animate = false` or an empty display the target replaces
the contents verbatim; otherwise `morph(currentSVG, newSVG)` runs with no
`onComplete`, leaving the mutated source document. -/
def displayStageFinal (current : Option (List Elem)) (target : List Elem)
    (animate : Bool) : List Elem :=
  match current, animate with
  | some cur, true => morphFinal cur target
  | _, _ => target

/-! ## Playback Controller: audio-element lifecycle (`SVGPlayer.old.tsx`) -/

/-- The `audioRef` state observed by `playStage` and `handleStop`: which
audio element (numbered by creation order) is held, how many have been
created so far in the session, and the element's playback position. -/
structure AudioState where
  element : Option Nat
  created : Nat
  currentTime : ℚ
deriving DecidableEq, Repr

/-- The audio handling of `playStage`: create an element only if none is
held (`if (!audioRef.current)`), then reposition `currentTime` to the
segment's start time. -/
def playStageAudio (s : AudioState) (startTime : ℚ) : AudioState :=
  let s1 :=
    match s.element with
    | none => { s with element := some s.created, created := s.created + 1 }
    | some _ => s
  { s1 with currentTime := startTime }

/-- The audio handling of `handleStop`: pause and discard the element
(`audioRef.current = null`). -/
def handleStopAudio (s : AudioState) : AudioState :=
  match s.element with
  | some _ => { s with element := none }
  | none => s

/-! ### Facts about `calculateClauseTimings` -/

theorem timingsAux_length (total duration : ℚ) (ws : List ℚ) (cur : ℚ) :
    (timingsAux total duration ws cur).length = ws.length := by
  induction ws generalizing cur with
  | nil => rfl
  | cons w ws ih => simp [timingsAux, ih]

theorem timingsAux_head (total duration : ℚ) (w : ℚ) (ws : List ℚ) (cur : ℚ) :
    (timingsAux total duration (w :: ws) cur).head? = some cur := rfl

theorem timingsAux_get (total duration : ℚ) (ws : List ℚ) (cur : ℚ) (i : Nat)
    (h : i < (timingsAux total duration ws cur).length) :
    (timingsAux total duration ws cur).get ⟨i, h⟩ =
      cur + (ws.take i).sum / total * duration := by
  induction ws generalizing cur i with
  | nil => simp [timingsAux_length] at h
  | cons w ws ih =>
    cases i with
    | zero => simp [timingsAux]
    | succ j =>
      have hj : j < (timingsAux total duration ws (cur + w / total * duration)).length := by
        simpa [timingsAux, Nat.succ_lt_succ_iff] using h
      have := ih (cur + w / total * duration) j hj
      simp only [timingsAux, List.get_cons_succ] at this ⊢
      rw [this, List.take_succ_cons, List.sum_cons]
      ring

theorem timingsAux_chain (total duration : ℚ) (ws : List ℚ) (cur : ℚ)
    (h : ∀ w ∈ ws, 0 ≤ w / total * duration) :
    (timingsAux total duration ws cur).Chain' (· ≤ ·) := by
  induction ws generalizing cur with
  | nil => simp [timingsAux]
  | cons w ws ih =>
    simp only [timingsAux]
    rw [List.chain'_cons']
    refine ⟨?_, ih _ fun x hx => h x (List.mem_cons_of_mem _ hx)⟩
    intro y hy
    cases ws with
    | nil => simp [timingsAux] at hy
    | cons w2 ws2 =>
      rw [timingsAux_head] at hy
      cases hy
      have := h w (List.mem_cons_self _ _)
      linarith

theorem clauseWeight_ge_ten (c : String) : (10 : ℚ) ≤ clauseWeight c :=
  le_max_right _ _

theorem weights_sum_nonneg (clauses : List String) :
    0 ≤ (clauses.map clauseWeight).sum := by
  refine List.sum_nonneg ?_
  intro w hw
  obtain ⟨c, _, rfl⟩ := List.mem_map.mp hw
  exact le_trans (by norm_num) (clauseWeight_ge_ten c)

theorem calculateClauseTimings_chain (clauses : List String) (duration : ℚ)
    (hd : 0 ≤ duration) :
    (calculateClauseTimings clauses duration).Chain' (· ≤ ·) := by
  refine timingsAux_chain _ _ _ _ ?_
  intro w hw
  obtain ⟨c, _, rfl⟩ := List.mem_map.mp hw
  have h10 := clauseWeight_ge_ten c
  have hsum := weights_sum_nonneg clauses
  have hw0 : 0 ≤ clauseWeight c := le_trans (by norm_num) h10
  positivity

theorem calculateClauseTimings_pairwise (clauses : List String) (duration : ℚ)
    (hd : 0 ≤ duration) :
    (calculateClauseTimings clauses duration).Pairwise (· ≤ ·) :=
  List.chain'_iff_pairwise.mp (calculateClauseTimings_chain clauses duration hd)

/-- C6: `calculateClauseTimings` assigns weight `max(length, 10)` per clause
and offset `duration · (Σ weights before i / Σ all weights)`; the offsets
are non-decreasing, one per clause, and start at 0. -/
theorem C6_calculateClauseTimings_spec (clauses : List String) (duration : ℚ)
    (hd : 0 ≤ duration) :
    (calculateClauseTimings clauses duration).length = clauses.length ∧
    (∀ i (h : i < (calculateClauseTimings clauses duration).length),
      (calculateClauseTimings clauses duration).get ⟨i, h⟩ =
        duration * (((clauses.map clauseWeight).take i).sum /
          (clauses.map clauseWeight).sum)) ∧
    (calculateClauseTimings clauses duration).Chain' (· ≤ ·) ∧
    (clauses ≠ [] → (calculateClauseTimings clauses duration).head? = some 0) := by
  refine ⟨?_, ?_, calculateClauseTimings_chain clauses duration hd, ?_⟩
  · simpa [calculateClauseTimings] using
      timingsAux_length (clauses.map clauseWeight).sum duration (clauses.map clauseWeight) 0
  · intro i h
    have := timingsAux_get (clauses.map clauseWeight).sum duration
      (clauses.map clauseWeight) 0 i (by simpa [calculateClauseTimings] using h)
    simpa [calculateClauseTimings, mul_comm, mul_div_assoc] using this
  · intro hne
    cases clauses with
    | nil => exact absurd rfl hne
    | cons c cs => simp [calculateClauseTimings, timingsAux]

/-- C6 witness: the spec's own example, `["Hi.", "A longer clause here."]`
with total duration 10 (weights 10 and 21, so offsets `[0, 100/31]`). -/
theorem C6_calculateClauseTimings_spec_witness :
    (calculateClauseTimings ["Hi.", "A longer clause here."] 10).Chain' (· ≤ ·) ∧
    (calculateClauseTimings ["Hi.", "A longer clause here."] 10).head? = some 0 ∧
    calculateClauseTimings ["Hi.", "A longer clause here."] 10 = [0, 100 / 31] := by
  have h := C6_calculateClauseTimings_spec ["Hi.", "A longer clause here."] 10 (by norm_num)
  refine ⟨h.2.2.1, h.2.2.2 (by simp), ?_⟩
  have h1 : "Hi.".length = 3 := rfl
  have h2 : "A longer clause here.".length = 21 := rfl
  simp [calculateClauseTimings, timingsAux, clauseWeight, h1, h2]
  norm_num

/-! ### Facts about the active-clause scan -/

theorem findClauseAux_eq (t : ℚ) (l : List ℚ) (cur : Int) :
    findClauseAux t l cur = cur + (l.takeWhile (fun x => decide (x ≤ t))).length := by
  induction l generalizing cur with
  | nil => simp [findClauseAux]
  | cons x rest ih =>
    by_cases hx : x ≤ t
    · rw [findClauseAux, if_pos hx, ih, List.takeWhile_cons, if_pos (by simpa using hx)]
      simp only [List.length_cons]
      push_cast
      ring
    · rw [findClauseAux, if_neg hx, List.takeWhile_cons, if_neg (by simpa using hx)]
      simp

theorem takeWhile_le_of_pairwise (t : ℚ) (l : List ℚ) (hl : l.Pairwise (· ≤ ·))
    (i : Nat) (h : i < l.length) :
    l.get ⟨i, h⟩ ≤ t ↔ i < (l.takeWhile (fun x => decide (x ≤ t))).length := by
  induction l generalizing i with
  | nil => simp at h
  | cons x rest ih =>
    rw [List.pairwise_cons] at hl
    by_cases hx : x ≤ t
    · cases i with
      | zero =>
        rw [List.takeWhile_cons, if_pos (by simpa using hx)]
        simpa using hx
      | succ j =>
        rw [List.takeWhile_cons, if_pos (by simpa using hx)]
        have hj : j < rest.length := by simpa [Nat.succ_lt_succ_iff] using h
        have := ih hl.2 j hj
        simpa [Nat.succ_lt_succ_iff] using this
    · cases i with
      | zero =>
        rw [List.takeWhile_cons, if_neg (by simpa using hx)]
        simpa using hx
      | succ j =>
        rw [List.takeWhile_cons, if_neg (by simpa using hx)]
        have hj : j < rest.length := by simpa [Nat.succ_lt_succ_iff] using h
        have hxle : x ≤ rest.get ⟨j, hj⟩ := hl.1 _ (List.get_mem rest j hj)
        have : ¬ rest.get ⟨j, hj⟩ ≤ t := fun hle => hx (le_trans hxle hle)
        simpa using this

/-- C7: on any offsets array produced by `calculateClauseTimings`, the scan
in `playStage` returns the largest index `i` with `offset[i] <= t` — the
returned index is at least −1, below the array length, and an index `i`
satisfies `offset[i] <= t` exactly when `i` is at most the returned index
(so the result is −1 exactly when `t` is before every offset). -/
theorem C7_findClauseIdx_spec (clauses : List String) (duration t : ℚ)
    (hd : 0 ≤ duration) :
    -1 ≤ findClauseIdx t (calculateClauseTimings clauses duration) ∧
    findClauseIdx t (calculateClauseTimings clauses duration) <
      ((calculateClauseTimings clauses duration).length : Int) ∧
    ∀ i (h : i < (calculateClauseTimings clauses duration).length),
      ((calculateClauseTimings clauses duration).get ⟨i, h⟩ ≤ t ↔
        (i : Int) ≤ findClauseIdx t (calculateClauseTimings clauses duration)) := by
  have hpw := calculateClauseTimings_pairwise clauses duration hd
  have heq : findClauseIdx t (calculateClauseTimings clauses duration) =
      -1 + (((calculateClauseTimings clauses duration).takeWhile
        (fun x => decide (x ≤ t))).length : Int) :=
    findClauseAux_eq t _ (-1)
  have hlen : ((calculateClauseTimings clauses duration).takeWhile
      (fun x => decide (x ≤ t))).length ≤ (calculateClauseTimings clauses duration).length :=
    (List.takeWhile_sublist _).length_le
  refine ⟨by rw [heq]; omega, by rw [heq]; omega, ?_⟩
  intro i h
  rw [takeWhile_le_of_pairwise t _ hpw i h, heq]
  omega

/-- C7 witness: for clauses `["Hi.", "A longer clause here."]`, duration 10
(offsets `[0, 100/31]`) and elapsed time `t = 2`, the scan returns index 0. -/
theorem C7_findClauseIdx_spec_witness :
    -1 ≤ findClauseIdx 2 (calculateClauseTimings ["Hi.", "A longer clause here."] 10) ∧
    findClauseIdx 2 (calculateClauseTimings ["Hi.", "A longer clause here."] 10) = 0 := by
  have h := C7_findClauseIdx_spec ["Hi.", "A longer clause here."] 10 2 (by norm_num)
  refine ⟨h.1, ?_⟩
  have h1 : "Hi.".length = 3 := rfl
  have h2 : "A longer clause here.".length = 21 := rfl
  have hofs : calculateClauseTimings ["Hi.", "A longer clause here."] 10 = [0, 100 / 31] := by
    simp [calculateClauseTimings, timingsAux, clauseWeight, h1, h2]
    norm_num
  rw [hofs]
  norm_num [findClauseIdx, findClauseAux]

/-- C8: `splitIntoClauses` splits on whitespace following `. ! ? : ; ,`,
trims each piece and drops empty pieces; on `"A, B. C!"` it returns exactly
`["A,", "B.", "C!"]`, and it never returns an empty clause. -/
theorem C8_splitIntoClauses_spec :
    splitIntoClauses "A, B. C!" = ["A,", "B.", "C!"] ∧
    ∀ s : String, "" ∉ splitIntoClauses s := by
  constructor
  · simp [splitIntoClauses, rawSplit, cleanup, dropWs, consHead, wsHead, isWsChar,
      isClausePunct, trimChars, trimLeft, trimRight]
  · intro s hmem
    obtain ⟨l, hl, hs⟩ := List.mem_map.mp hmem
    have hdata : l = [] := by
      have := congrArg String.data hs
      simpa using this
    have hfil := (List.mem_filter.mp hl).2
    rw [hdata] at hfil
    simp at hfil

/-! ### Color parsing (claim C3) -/

/-- C3: refuted by the code — `parseColor` has no failure path. A color
string that is not a 6-digit `#RRGGBB` hex string, such as the named color
`"red"`, an `rgb(...)` form, or the empty string, is silently coerced to
white `{r: 255, g: 255, b: 255}` instead of being rejected with a
descriptive error. -/
theorem C3_parseColor_silently_defaults_to_white :
    parseColor "red" = ⟨some 255, some 255, some 255⟩ ∧
    parseColor "rgb(0, 0, 0)" = ⟨some 255, some 255, some 255⟩ ∧
    parseColor "" = ⟨some 255, some 255, some 255⟩ := by
  refine ⟨?_, ?_, ?_⟩ <;> simp [parseColor]

/-! ### Easing and interpolation bounds (claim C5) -/

theorem round_mono_rat {x y : ℚ} (h : x ≤ y) : round x ≤ round y := by
  rw [round_eq, round_eq]
  exact Int.floor_mono (by linarith)

theorem easeInOutCubic_monotone {t1 t2 : ℚ} (h0 : 0 ≤ t1) (h12 : t1 ≤ t2)
    (h21 : t2 ≤ 1) : easeInOutCubic t1 ≤ easeInOutCubic t2 := by
  unfold easeInOutCubic
  by_cases ht1 : t1 < 1 / 2 <;> by_cases ht2 : t2 < 1 / 2
  · rw [if_pos ht1, if_pos ht2]
    nlinarith [mul_nonneg (sub_nonneg.mpr h12)
      (add_nonneg (add_nonneg (mul_nonneg h0 h0) (mul_nonneg h0 (le_trans h0 h12)))
        (mul_nonneg (le_trans h0 h12) (le_trans h0 h12)))]
  · rw [if_pos ht1, if_neg ht2]
    have hb0 : (0 : ℚ) ≤ 2 - 2 * t2 := by linarith
    have hb1 : 2 - 2 * t2 ≤ 1 := by linarith [not_lt.mp ht2]
    have ha0 : (0 : ℚ) ≤ 1 / 2 - t1 := by linarith
    nlinarith [mul_nonneg ha0 (add_nonneg (add_nonneg (mul_nonneg h0 h0)
        (mul_nonneg h0 (by linarith : (0 : ℚ) ≤ (1 : ℚ) / 2))) (by norm_num : (0 : ℚ) ≤ (1 : ℚ) / 4)),
      mul_nonneg (sub_nonneg.mpr hb1)
        (add_nonneg (add_nonneg (by norm_num : (0 : ℚ) ≤ (1 : ℚ)) hb0) (mul_nonneg hb0 hb0))]
  · exact absurd (lt_of_le_of_lt h12 ht2) (fun hc => ht1 hc)
  · rw [if_neg ht1, if_neg ht2]
    have hb2 : (0 : ℚ) ≤ 2 - 2 * t2 := by linarith
    have hb12 : 2 - 2 * t2 ≤ 2 - 2 * t1 := by linarith
    nlinarith [mul_nonneg (sub_nonneg.mpr hb12)
      (add_nonneg (add_nonneg (mul_nonneg (by linarith : (0 : ℚ) ≤ 2 - 2 * t1)
          (by linarith : (0 : ℚ) ≤ 2 - 2 * t1)) (mul_nonneg (by linarith : (0 : ℚ) ≤ 2 - 2 * t1) hb2))
        (mul_nonneg hb2 hb2))]

theorem easeInOutCubic_zero : easeInOutCubic 0 = 0 := by norm_num [easeInOutCubic]

theorem easeInOutCubic_one : easeInOutCubic 1 = 1 := by norm_num [easeInOutCubic]

/-- C5: the ease-in-out cubic fixes 0 and 1 and is monotonically
non-decreasing on [0,1]; consequently the eased progress stays in [0,1],
numeric interpolation stays between its endpoints, and each rounded color
channel stays between its endpoint channels and inside [0,255] — no
overshoot. -/
theorem C5_easing_and_interpolation_no_overshoot :
    easeInOutCubic 0 = 0 ∧ easeInOutCubic 1 = 1 ∧
    (∀ t1 t2 : ℚ, 0 ≤ t1 → t1 ≤ t2 → t2 ≤ 1 →
      easeInOutCubic t1 ≤ easeInOutCubic t2) ∧
    (∀ t : ℚ, 0 ≤ t → t ≤ 1 → 0 ≤ easeInOutCubic t ∧ easeInOutCubic t ≤ 1) ∧
    (∀ start endVal p : ℚ, 0 ≤ p → p ≤ 1 →
      min start endVal ≤ interpolateNumber start endVal p ∧
      interpolateNumber start endVal p ≤ max start endVal) ∧
    (∀ (c1 c2 v : Int) (p : ℚ), 0 ≤ p → p ≤ 1 →
      0 ≤ c1 → c1 ≤ 255 → 0 ≤ c2 → c2 ≤ 255 →
      chanInterp (some c1) (some c2) p = some v →
      min c1 c2 ≤ v ∧ v ≤ max c1 c2 ∧ 0 ≤ v ∧ v ≤ 255) := by
  have hmono : ∀ t1 t2 : ℚ, 0 ≤ t1 → t1 ≤ t2 → t2 ≤ 1 →
      easeInOutCubic t1 ≤ easeInOutCubic t2 := fun t1 t2 a b c =>
    easeInOutCubic_monotone a b c
  refine ⟨easeInOutCubic_zero, easeInOutCubic_one, hmono, ?_, ?_, ?_⟩
  · intro t h0 h1
    constructor
    · have := hmono 0 t le_rfl h0 h1
      rwa [easeInOutCubic_zero] at this
    · have := hmono t 1 h0 h1 le_rfl
      rwa [easeInOutCubic_one] at this
  · intro start endVal p hp0 hp1
    unfold interpolateNumber
    rcases le_total start endVal with h | h
    · rw [min_eq_left h, max_eq_right h]
      constructor <;> nlinarith [mul_nonneg (sub_nonneg.mpr h) hp0]
    · rw [min_eq_right h, max_eq_left h]
      constructor <;> nlinarith [mul_nonneg (sub_nonneg.mpr h) hp0]
  · intro c1 c2 v p hp0 hp1 hc10 hc1 hc20 hc2 heq
    have hv : v = round ((c1 : ℚ) + ((c2 : ℚ) - (c1 : ℚ)) * p) := by
      simpa [chanInterp] using heq.symm
    have hlow : ((min c1 c2 : Int) : ℚ) ≤ (c1 : ℚ) + ((c2 : ℚ) - (c1 : ℚ)) * p := by
      rcases le_total c1 c2 with h | h
      · rw [min_eq_left h]
        nlinarith [mul_nonneg (sub_nonneg.mpr (show (c1 : ℚ) ≤ (c2 : ℚ) by exact_mod_cast h)) hp0]
      · rw [min_eq_right h]
        nlinarith [mul_nonneg (sub_nonneg.mpr (show (c2 : ℚ) ≤ (c1 : ℚ) by exact_mod_cast h))
          (sub_nonneg.mpr hp1)]
    have hhigh : (c1 : ℚ) + ((c2 : ℚ) - (c1 : ℚ)) * p ≤ ((max c1 c2 : Int) : ℚ) := by
      rcases le_total c1 c2 with h | h
      · rw [max_eq_right h]
        nlinarith [mul_nonneg (sub_nonneg.mpr (show (c1 : ℚ) ≤ (c2 : ℚ) by exact_mod_cast h))
          (sub_nonneg.mpr hp1)]
      · rw [max_eq_left h]
        nlinarith [mul_nonneg (sub_nonneg.mpr (show (c2 : ℚ) ≤ (c1 : ℚ) by exact_mod_cast h)) hp0]
    have h1 : min c1 c2 ≤ v := by
      rw [hv]
      have := round_mono_rat hlow
      rwa [round_intCast] at this
    have h2 : v ≤ max c1 c2 := by
      rw [hv]
      have := round_mono_rat hhigh
      rwa [round_intCast] at this
    refine ⟨h1, h2, le_trans (le_min hc10 hc20) h1, le_trans h2 (max_le hc1 hc2)⟩

/-! ### Audio-element lifecycle (claim C9) -/

/-- C9 counterexample: starting from a fresh session, `playStage` creates
element 0; `handleStop` discards it; the next `playStage` creates a fresh
element 1 — the audio element is not reused across `stop()` / `play()`,
contradicting the claim that only `currentTime` is ever repositioned
within a session. -/
theorem C9_counterexample_stop_discards_element :
    (playStageAudio (handleStopAudio (playStageAudio ⟨none, 0, 0⟩ 3)) 3).element ≠
      (playStageAudio ⟨none, 0, 0⟩ 3).element ∧
    (handleStopAudio (playStageAudio ⟨none, 0, 0⟩ 3)).element = none := by
  constructor <;> simp [playStageAudio, handleStopAudio]

/-- C9 amended: within one uninterrupted play run the audio element is
created lazily by the first `playStage` and reused by every later
`playStage`, which only repositions `currentTime`; but `handleStop`
discards the element, so the `playStage` after a stop creates a fresh
one. -/
theorem C9_audio_element_lifecycle (s : AudioState) (startTime : ℚ) :
    ((playStageAudio s startTime).element =
      match s.element with
      | none => some s.created
      | some a => some a) ∧
    (playStageAudio s startTime).currentTime = startTime ∧
    ((playStageAudio s startTime).created =
      match s.element with
      | none => s.created + 1
      | some _ => s.created) ∧
    (handleStopAudio s).element = none ∧
    (handleStopAudio s).created = s.created := by
  rcases s with ⟨el, cr, ct⟩
  cases el <;> simp [playStageAudio, handleStopAudio]

/-! ### Frame application (claims C1 and C2) -/

theorem applyAttrTransition_id (e : Elem) (a : AttrTransition) (p : ℚ) :
    (applyAttrTransition e a p).id = e.id := by
  unfold applyAttrTransition
  cases a.kind
  · rfl
  · cases parseFloatQ a.fromVal <;> cases parseFloatQ a.toVal <;> rfl

theorem foldlAttrs_id (attrs : List AttrTransition) (e : Elem) (p : ℚ) :
    (attrs.foldl (fun acc a => applyAttrTransition acc a p) e).id = e.id := by
  induction attrs generalizing e with
  | nil => rfl
  | cons a rest ih => rw [List.foldl_cons, ih, applyAttrTransition_id]

theorem elemFrame_cons (tr : Transition) (rest : List Transition) (p : ℚ) (e : Elem) :
    elemFrame (tr :: rest) p e =
      elemFrame rest p
        (if e.id == tr.elemId then
          tr.attributes.foldl (fun acc a => applyAttrTransition acc a p) e
        else e) := rfl

theorem elemFrame_id (trs : List Transition) (p : ℚ) (e : Elem) :
    (elemFrame trs p e).id = e.id := by
  induction trs generalizing e with
  | nil => rfl
  | cons tr rest ih =>
    rw [elemFrame_cons]
    by_cases h : e.id == tr.elemId
    · rw [if_pos h, ih, foldlAttrs_id]
    · rw [if_neg h, ih]

theorem elemFrame_of_untargeted (trs : List Transition) (p : ℚ) (e : Elem)
    (h : ∀ tr ∈ trs, tr.elemId ≠ e.id) : elemFrame trs p e = e := by
  induction trs with
  | nil => rfl
  | cons tr rest ih =>
    rw [elemFrame_cons, if_neg, ih fun t ht => h t (List.mem_cons_of_mem _ ht)]
    intro hb
    exact h tr (List.mem_cons_self _ _) (beq_iff_eq.mp hb).symm

theorem applyFrame_eq_map (doc : List Elem) (trs : List Transition) (p : ℚ) :
    applyFrame doc trs p = doc.map (elemFrame trs p) := by
  induction trs generalizing doc with
  | nil =>
    show doc = doc.map (fun e => e)
    exact (List.map_id' doc).symm
  | cons tr rest ih =>
    show applyFrame (applyTransition doc tr p) rest p = _
    rw [ih, applyTransition, List.map_map]
    rfl

/-- C1 counterexample: morphing from a one-circle diagram to a target that
also contains a fresh rectangle `"d"`. When the animation completes the
display is not replaced by the target tree: no element with id `"d"` ever
appears, although the target contains one. -/
theorem C1_counterexample_no_replacement_at_completion :
    displayStageFinal (some [⟨"c", [("cx", "10")]⟩])
        [⟨"c", [("cx", "20")]⟩, ⟨"d", [("x", "5")]⟩] true ≠
      [⟨"c", [("cx", "20")]⟩, ⟨"d", [("x", "5")]⟩] ∧
    (∃ e ∈ ([⟨"c", [("cx", "20")]⟩, ⟨"d", [("x", "5")]⟩] : List Elem), e.id = "d") ∧
    (∀ e ∈ displayStageFinal (some [⟨"c", [("cx", "10")]⟩])
        [⟨"c", [("cx", "20")]⟩, ⟨"d", [("x", "5")]⟩] true, e.id ≠ "d") := by
  have htr : computeTransitions [⟨"c", [("cx", "10")]⟩]
      [⟨"c", [("cx", "20")]⟩, ⟨"d", [("x", "5")]⟩] =
      [⟨"c", [⟨"cx", "10", "20", .number⟩]⟩] := by
    simp [computeTransitions, transitionForKey, objKeys, objGet, firstDedup, attrEntries,
      attrEntryFor, morphAttributes, getAttr, List.filterMap_cons]
  have he : easeInOutCubic 1 = 1 := by norm_num [easeInOutCubic]
  have hf10 : parseFloatQ "10" = some 10 := by
    simp [parseFloatQ, isWsChar]
    norm_num
  have hf20 : parseFloatQ "20" = some 20 := by
    simp [parseFloatQ, isWsChar]
    norm_num
  have heval : displayStageFinal (some [⟨"c", [("cx", "10")]⟩])
      [⟨"c", [("cx", "20")]⟩, ⟨"d", [("x", "5")]⟩] true =
      [⟨"c", [("cx", "20")]⟩] := by
    show morphFinal _ _ = _
    rw [morphFinal, htr, he]
    simp [applyFrame, applyTransition, applyAttrTransition, hf10, hf20,
      interpolateNumber, numToString, setAttr, setAttrList]
    rfl
  rw [heval]
  refine ⟨by simp, ⟨⟨"d", [("x", "5")]⟩, by simp, rfl⟩, by simp⟩

/-- C1 as amended by the counterexample: every frame of the animation maps
the displayed (source) document elementwise, preserving every element id;
an element not targeted by any transition entry is untouched by every
frame. At completion the display is not replaced: it is the source tree
after the final frame (eased progress `easeInOutCubic 1`), so primitives
present only in the target never appear. -/
theorem C1_frames_preserve_untargeted_primitives (A B : List Elem) (p : ℚ) :
    applyFrame A (computeTransitions A B) p = A.map (elemFrame (computeTransitions A B) p) ∧
    (∀ e : Elem, (elemFrame (computeTransitions A B) p e).id = e.id) ∧
    (∀ e : Elem, (∀ tr ∈ computeTransitions A B, tr.elemId ≠ e.id) →
      elemFrame (computeTransitions A B) p e = e) ∧
    displayStageFinal (some A) B true =
      A.map (elemFrame (computeTransitions A B) (easeInOutCubic 1)) :=
  ⟨applyFrame_eq_map A _ p, fun e => elemFrame_id _ p e,
    fun e h => elemFrame_of_untargeted _ p e h,
    applyFrame_eq_map A _ _⟩

/-- C2 counterexample: at full duration the displayed state is not
attribute-for-attribute equal to the target. Morphing a black circle to a
target whose `fill` is `"#FF0000"` and which carries a fresh `r` attribute
ends with `fill = "#ff0000"` (re-serialised lowercase) and no `r` at all —
the final document differs from the target's primitives. -/
theorem C2_counterexample_final_state_not_target :
    displayStageFinal (some [⟨"c", [("fill", "#000000")]⟩])
        [⟨"c", [("fill", "#FF0000"), ("r", "5")]⟩] true ≠
      [⟨"c", [("fill", "#FF0000"), ("r", "5")]⟩] := by
  have htr : computeTransitions [⟨"c", [("fill", "#000000")]⟩]
      [⟨"c", [("fill", "#FF0000"), ("r", "5")]⟩] =
      [⟨"c", [⟨"fill", "#000000", "#FF0000", .color⟩]⟩] := by
    simp [computeTransitions, transitionForKey, objKeys, objGet, firstDedup, attrEntries,
      attrEntryFor, morphAttributes, getAttr, List.filterMap_cons]
  have he : easeInOutCubic 1 = 1 := by norm_num [easeInOutCubic]
  have hcol : interpolateColor "#000000" "#FF0000" 1 = "#ff0000" := by
    simp [interpolateColor, parseColor, parseIntHex, parseHexStart, parseHexAux, hexDigitVal,
      isWsChar, chanInterp, chanHexString, padStart2, Nat.toDigits, Nat.toDigitsCore,
      Nat.digitChar]
    rfl
  have heval : displayStageFinal (some [⟨"c", [("fill", "#000000")]⟩])
      [⟨"c", [("fill", "#FF0000"), ("r", "5")]⟩] true =
      [⟨"c", [("fill", "#ff0000")]⟩] := by
    show morphFinal _ _ = _
    rw [morphFinal, htr, he]
    simp [applyFrame, applyTransition, applyAttrTransition, hcol, setAttr, setAttrList]
  rw [heval]
  simp

/-- C2 as amended by the counterexample: at raw progress 1 each transition
entry does reach its target exactly at the value level — numeric
interpolation returns the exact target number and each color channel
returns the exact target channel — and the final display is the source
tree after the progress-1 frame (ids preserved, no primitive of the target
alone appearing); it is not in general equal to the target's primitive
tree. -/
theorem C2_transitioned_values_exact_at_progress_one (A B : List Elem) :
    (∀ start endVal : ℚ, interpolateNumber start endVal 1 = endVal) ∧
    (∀ c1 c2 : Int, chanInterp (some c1) (some c2) 1 = some c2) ∧
    displayStageFinal (some A) B true = applyFrame A (computeTransitions A B) 1 ∧
    (∀ e' ∈ displayStageFinal (some A) B true, ∃ e ∈ A, e'.id = e.id) := by
  have he : easeInOutCubic 1 = 1 := by norm_num [easeInOutCubic]
  refine ⟨?_, ?_, ?_, ?_⟩
  · intro start endVal
    unfold interpolateNumber
    ring
  · intro c1 c2
    have : ((c1 : ℚ) + ((c2 : ℚ) - (c1 : ℚ)) * 1) = ((c2 : Int) : ℚ) := by ring
    rw [chanInterp, this, round_intCast]
  · show morphFinal A B = _
    rw [morphFinal, he]
  · intro e' he'
    have : displayStageFinal (some A) B true = A.map (elemFrame (computeTransitions A B) (easeInOutCubic 1)) :=
      applyFrame_eq_map A _ _
    rw [this] at he'
    obtain ⟨e, hmem, rfl⟩ := List.mem_map.mp he'
    exact ⟨e, hmem, elemFrame_id _ _ e⟩

/-! ### The transition set (claim C4) -/

theorem objGet_eq_none_iff (els : List Elem) (i : String) :
    objGet els i = none ↔ ∀ e ∈ els, e.id ≠ i := by
  unfold objGet
  rw [List.find?_eq_none]
  constructor
  · intro h e he
    have := h e (List.mem_reverse.mpr he)
    simpa using this
  · intro h e he
    have := h e (List.mem_reverse.mp he)
    simpa using this

theorem objGet_mem (els : List Elem) (i : String) (e : Elem) (h : objGet els i = some e) :
    e ∈ els ∧ e.id = i := by
  unfold objGet at h
  refine ⟨List.mem_reverse.mp (List.mem_of_find?_eq_some h), ?_⟩
  simpa using List.find?_some h

theorem idsNodup_cons (x : Elem) (rest : List Elem) (h : idsNodup (x :: rest)) :
    idsNodup rest ∧ (x.id ≠ "" → ∀ y ∈ rest, y.id ≠ x.id) := by
  unfold idsNodup at h ⊢
  rw [List.map_cons, List.filter_cons] at h
  by_cases hx : x.id = ""
  · rw [if_neg (by simp [hx])] at h
    exact ⟨h, fun hne => absurd hx hne⟩
  · rw [if_pos (by simpa using hx)] at h
    rw [List.nodup_cons] at h
    refine ⟨h.2, fun _ y hy hid => ?_⟩
    refine h.1 ?_
    rw [← hid]
    refine List.mem_filter.mpr ⟨List.mem_map.mpr ⟨y, hy, rfl⟩, ?_⟩
    simp [hid, hx]

theorem objGet_of_mem (els : List Elem) (e : Elem) (h : idsNodup els)
    (he : e ∈ els) (hi : e.id ≠ "") : objGet els e.id = some e := by
  induction els with
  | nil => simp at he
  | cons x rest ih =>
    obtain ⟨hrest, huniq⟩ := idsNodup_cons x rest h
    unfold objGet
    rw [List.reverse_cons, List.find?_append]
    rcases List.mem_cons.mp he with rfl | hmem
    · have hnone : rest.reverse.find? (fun y => y.id == e.id) = none := by
        rw [List.find?_eq_none]
        intro y hy hbeq
        exact huniq hi y (List.mem_reverse.mp hy) (by simpa using hbeq)
      rw [hnone, Option.none_or]
      simp [List.find?_cons]
    · have := ih hrest hmem
      unfold objGet at this
      rw [this]
      rfl

theorem mem_objKeys_iff (els : List Elem) (i : String) :
    i ∈ objKeys els ↔ i ≠ "" ∧ ∃ e ∈ els, e.id = i := by
  unfold objKeys
  have hdedup : ∀ l : List String, ∀ j : String, j ∈ firstDedup l ↔ j ∈ l := by
    intro l
    induction l with
    | nil => intro j; simp [firstDedup]
    | cons x xs ih =>
      intro j
      simp only [firstDedup, List.mem_cons, List.mem_filter]
      constructor
      · rintro (rfl | ⟨hj, _⟩)
        · exact Or.inl rfl
        · exact Or.inr ((ih j).mp hj)
      · rintro (rfl | hj)
        · exact Or.inl rfl
        · by_cases hx : j = x
          · exact Or.inl hx
          · exact Or.inr ⟨(ih j).mpr hj, by simpa using hx⟩
  rw [hdedup]
  rw [List.mem_filter]
  constructor
  · rintro ⟨hmap, hne⟩
    obtain ⟨e, he, rfl⟩ := List.mem_map.mp hmap
    exact ⟨by simpa using hne, e, he, rfl⟩
  · rintro ⟨hne, e, he, rfl⟩
    exact ⟨List.mem_map.mpr ⟨e, he, rfl⟩, by simpa using hne⟩

theorem attrEntryFor_name (fromEl toEl : Elem) (attr : String) (entry : AttrTransition)
    (h : attrEntryFor fromEl toEl attr = some entry) : entry.name = attr := by
  unfold attrEntryFor at h
  rcases hf : getAttr fromEl attr with _ | fv <;>
    rcases ht : getAttr toEl attr with _ | tv <;> rw [hf, ht] at h
  · exact Option.noConfusion h
  · exact Option.noConfusion h
  · exact Option.noConfusion h
  · have h2 : (if fv ≠ tv then
        some (⟨attr, fv, tv,
          if attr = "fill" ∨ attr = "stroke" then AttrKind.color else AttrKind.number⟩ :
          AttrTransition)
      else none) = some entry := h
    by_cases hne : fv ≠ tv
    · rw [if_pos hne] at h2
      cases Option.some_inj.mp h2
      rfl
    · rw [if_neg hne] at h2
      exact Option.noConfusion h2

theorem mem_attrEntries_iff (fromEl toEl : Elem) (a f t : String) (k : AttrKind) :
    (⟨a, f, t, k⟩ : AttrTransition) ∈ attrEntries fromEl toEl ↔
      a ∈ morphAttributes ∧ getAttr fromEl a = some f ∧ getAttr toEl a = some t ∧
      f ≠ t ∧ k = (if a = "fill" ∨ a = "stroke" then .color else .number) := by
  unfold attrEntries
  rw [List.mem_filterMap]
  constructor
  · rintro ⟨attr, hattr, hsome⟩
    unfold attrEntryFor at hsome
    rcases hf : getAttr fromEl attr with _ | fv
    · rw [hf] at hsome
      simp at hsome
    rcases ht : getAttr toEl attr with _ | tv
    · rw [hf, ht] at hsome
      simp at hsome
    rw [hf, ht] at hsome
    have hsome2 : (if fv ≠ tv then
        some (⟨attr, fv, tv,
          if attr = "fill" ∨ attr = "stroke" then AttrKind.color else AttrKind.number⟩ :
          AttrTransition)
      else none) = some ⟨a, f, t, k⟩ := hsome
    by_cases hne : fv ≠ tv
    · rw [if_pos hne] at hsome2
      simp only [Option.some.injEq, AttrTransition.mk.injEq] at hsome2
      obtain ⟨rfl, rfl, rfl, rfl⟩ := hsome2
      exact ⟨hattr, hf, ht, hne, rfl⟩
    · rw [if_neg hne] at hsome2
      simp at hsome2
  · rintro ⟨hattr, hf, ht, hne, rfl⟩
    refine ⟨a, hattr, ?_⟩
    unfold attrEntryFor
    rw [hf, ht]
    show (if f ≠ t then
        some (⟨a, f, t,
          if a = "fill" ∨ a = "stroke" then AttrKind.color else AttrKind.number⟩ :
          AttrTransition)
      else none) = _
    rw [if_pos hne]

theorem transitionForKey_elemId (fromEls toEls : List Elem) (i : String) (tr : Transition)
    (h : transitionForKey fromEls toEls i = some tr) : tr.elemId = i := by
  unfold transitionForKey at h
  rcases hof : objGet fromEls i with _ | fe <;>
    rcases hot : objGet toEls i with _ | te <;> rw [hof, hot] at h
  · exact Option.noConfusion h
  · exact Option.noConfusion h
  · exact Option.noConfusion h
  · have h2 : (if attrEntries fe te ≠ [] then
        some ({ elemId := i, attributes := attrEntries fe te } : Transition)
      else none) = some tr := h
    by_cases hne : attrEntries fe te ≠ []
    · rw [if_pos hne] at h2
      cases Option.some_inj.mp h2
      rfl
    · rw [if_neg hne] at h2
      exact Option.noConfusion h2

theorem transitionForKey_some_iff (fromEls toEls : List Elem) (i : String) (tr : Transition) :
    transitionForKey fromEls toEls i = some tr ↔
      ∃ fe te, objGet fromEls i = some fe ∧ objGet toEls i = some te ∧
        tr = { elemId := i, attributes := attrEntries fe te } ∧ attrEntries fe te ≠ [] := by
  unfold transitionForKey
  rcases hof : objGet fromEls i with _ | fe <;>
    rcases hot : objGet toEls i with _ | te
  · simp
  · simp
  · simp
  · have hred : (match (some fe : Option Elem), (some te : Option Elem) with
        | some fromEl, some toEl =>
          if attrEntries fromEl toEl ≠ [] then
            some ({ elemId := i, attributes := attrEntries fromEl toEl } : Transition)
          else none
        | _, _ => none) =
        (if attrEntries fe te ≠ [] then
          some ({ elemId := i, attributes := attrEntries fe te } : Transition)
        else none) := rfl
    rw [hred]
    by_cases hne : attrEntries fe te ≠ []
    · rw [if_pos hne]
      constructor
      · intro h
        exact ⟨fe, te, rfl, rfl, (Option.some_inj.mp h).symm, hne⟩
      · rintro ⟨fe2, te2, hfe2, hte2, rfl, _⟩
        cases Option.some_inj.mp hfe2
        cases Option.some_inj.mp hte2
        rfl
    · rw [if_neg hne]
      constructor
      · intro h
        exact Option.noConfusion h
      · rintro ⟨fe2, te2, hfe2, hte2, rfl, hne2⟩
        cases Option.some_inj.mp hfe2
        cases Option.some_inj.mp hte2
        exact absurd hne2 hne

theorem filterMap_key_pairwise {α β : Type} (g : α → Option β) (key : β → α)
    (hg : ∀ x y, g x = some y → key y = x) (l : List α) (hl : l.Nodup) :
    (l.filterMap g).Pairwise (fun b1 b2 => key b1 ≠ key b2) := by
  induction l with
  | nil => simp
  | cons x xs ih =>
    rw [List.filterMap_cons]
    rw [List.nodup_cons] at hl
    cases hgx : g x with
    | none => exact ih hl.2
    | some y =>
      rw [List.pairwise_cons]
      refine ⟨?_, ih hl.2⟩
      intro y2 hy2
      obtain ⟨x2, hx2, hgx2⟩ := List.mem_filterMap.mp hy2
      rw [hg x y hgx, hg x2 y2 hgx2]
      exact fun hxx => hl.1 (hxx ▸ hx2)

theorem objKeys_nodup (els : List Elem) : (objKeys els).Nodup := by
  unfold objKeys
  generalize (els.map (fun e => e.id)).filter (fun i => i != "") = l
  induction l with
  | nil => simp [firstDedup]
  | cons x xs ih =>
    rw [firstDedup, List.nodup_cons]
    refine ⟨fun hmem => ?_, List.Nodup.filter _ ih⟩
    have := (List.mem_filter.mp hmem).2
    simp at this

theorem morphAttributes_nodup : morphAttributes.Nodup := by decide

/-- C4: the transition set contains exactly one entry per identity token
present in both documents and per animatable attribute present on both
sides with different raw values; tokenless primitives (empty id) yield no
transition, only the thirteen listed attributes appear, and an entry's
kind is `color` exactly for `fill` and `stroke`. Stated for documents
satisfying the generator's uniqueness invariant on identity tokens. -/
theorem C4_transition_set_characterization (fromEls toEls : List Elem)
    (hfrom : idsNodup fromEls) (hto : idsNodup toEls)
    (i a f t : String) (k : AttrKind) :
    ((∃ tr ∈ computeTransitions fromEls toEls, tr.elemId = i ∧
        (⟨a, f, t, k⟩ : AttrTransition) ∈ tr.attributes) ↔
      (i ≠ "" ∧ (∃ fe ∈ fromEls, fe.id = i ∧ getAttr fe a = some f) ∧
        (∃ te ∈ toEls, te.id = i ∧ getAttr te a = some t) ∧
        a ∈ morphAttributes ∧ f ≠ t ∧
        k = (if a = "fill" ∨ a = "stroke" then AttrKind.color else AttrKind.number))) ∧
    (computeTransitions fromEls toEls).Pairwise (fun t1 t2 => t1.elemId ≠ t2.elemId) ∧
    (∀ tr ∈ computeTransitions fromEls toEls,
      tr.attributes.Pairwise (fun a1 a2 => a1.name ≠ a2.name)) := by
  refine ⟨?_, ?_, ?_⟩
  · constructor
    · rintro ⟨tr, htr, rfl, hentry⟩
      obtain ⟨key, hkey, hg⟩ := List.mem_filterMap.mp htr
      obtain ⟨fe, te, hfe, hte, rfl, -⟩ := (transitionForKey_some_iff _ _ _ _).mp hg
      obtain ⟨hfmem, hfid⟩ := objGet_mem _ _ _ hfe
      obtain ⟨htmem, htid⟩ := objGet_mem _ _ _ hte
      have hkne : key ≠ "" := ((mem_objKeys_iff _ _).mp hkey).1
      obtain ⟨hattr, hgf, hgt, hne, rfl⟩ := (mem_attrEntries_iff _ _ _ _ _ _).mp hentry
      exact ⟨hkne, ⟨fe, hfmem, hfid, hgf⟩, ⟨te, htmem, htid, hgt⟩, hattr, hne, rfl⟩
    · rintro ⟨hine, ⟨fe, hfmem, hfid, hgf⟩, ⟨te, htmem, htid, hgt⟩, hattr, hne, rfl⟩
      have hfe : objGet fromEls i = some fe := by
        rw [← hfid]
        exact objGet_of_mem fromEls fe hfrom hfmem (hfid ▸ hine)
      have hte : objGet toEls i = some te := by
        rw [← htid]
        exact objGet_of_mem toEls te hto htmem (htid ▸ hine)
      have hentry : (⟨a, f, t,
          if a = "fill" ∨ a = "stroke" then AttrKind.color else AttrKind.number⟩ :
          AttrTransition) ∈ attrEntries fe te :=
        (mem_attrEntries_iff _ _ _ _ _ _).mpr ⟨hattr, hgf, hgt, hne, rfl⟩
      refine ⟨{ elemId := i, attributes := attrEntries fe te }, ?_, rfl, hentry⟩
      refine List.mem_filterMap.mpr ⟨i, ?_, ?_⟩
      · exact (mem_objKeys_iff _ _).mpr ⟨hine, fe, hfmem, hfid⟩
      · exact (transitionForKey_some_iff _ _ _ _).mpr
          ⟨fe, te, hfe, hte, rfl, List.ne_nil_of_mem hentry⟩
  · exact filterMap_key_pairwise _ (fun tr => tr.elemId)
      (fun x y h => transitionForKey_elemId _ _ x y h) _ (objKeys_nodup fromEls)
  · intro tr htr
    obtain ⟨key, hkey, hg⟩ := List.mem_filterMap.mp htr
    obtain ⟨fe, te, hfe, hte, rfl, -⟩ := (transitionForKey_some_iff _ _ _ _).mp hg
    show (attrEntries fe te).Pairwise _
    unfold attrEntries
    exact filterMap_key_pairwise _ (fun e => e.name)
      (fun x y h => attrEntryFor_name fe te x y h) _ morphAttributes_nodup

/-- C4 witness: one circle keyed `"c"` whose `cx` changes from 10 to 20
while its `fill` is unchanged, plus an unmatched element `"d"` — the
transition set contains the `cx` entry. -/
theorem C4_transition_set_characterization_witness :
    ∃ tr ∈ computeTransitions [⟨"c", [("cx", "10"), ("fill", "#000000")]⟩]
        [⟨"c", [("cx", "20"), ("fill", "#000000")]⟩, ⟨"d", [("x", "5")]⟩],
      tr.elemId = "c" ∧
      (⟨"cx", "10", "20", AttrKind.number⟩ : AttrTransition) ∈ tr.attributes := by
  have h := C4_transition_set_characterization
    [⟨"c", [("cx", "10"), ("fill", "#000000")]⟩]
    [⟨"c", [("cx", "20"), ("fill", "#000000")]⟩, ⟨"d", [("x", "5")]⟩]
    (by unfold idsNodup; decide) (by unfold idsNodup; decide) "c" "cx" "10" "20" AttrKind.number
  refine h.1.mpr ?_
  refine ⟨by decide, ⟨⟨"c", [("cx", "10"), ("fill", "#000000")]⟩, by simp, rfl, by decide⟩,
    ⟨⟨"c", [("cx", "20"), ("fill", "#000000")]⟩, by simp, rfl, by decide⟩,
    by decide, by decide, by decide⟩

/-! ### Coherence of sentence- and clause-splitting (claim C10)

`isSentencePunct` is contained in `isClausePunct`, so every sentence
boundary is also a clause boundary; splitting each raw sentence piece by
the clause rule and concatenating gives exactly the clause split of the
whole string. The lemmas below establish this first for the raw splits,
then carry it through trimming and empty-piece filtering. -/

theorem rawSplit_nil (p : Char → Bool) : rawSplit p [] = [[]] := by
  rw [rawSplit]

theorem rawSplit_cons_trigger (p : Char → Bool) (c : Char) (rest : List Char)
    (h : (p c && wsHead rest) = true) :
    rawSplit p (c :: rest) = [c] :: rawSplit p (dropWs rest) := by
  rw [rawSplit, if_pos h]

theorem rawSplit_cons_no (p : Char → Bool) (c : Char) (rest : List Char)
    (h : ¬((p c && wsHead rest) = true)) :
    rawSplit p (c :: rest) = consHead c (rawSplit p rest) := by
  rw [rawSplit, if_neg h]

theorem consHead_ne_nil (c : Char) (X : List (List Char)) : consHead c X ≠ [] := by
  cases X <;> simp [consHead]

theorem rawSplit_ne_nil (p : Char → Bool) (l : List Char) : rawSplit p l ≠ [] := by
  cases l with
  | nil => simp [rawSplit_nil]
  | cons c rest =>
    by_cases h : (p c && wsHead rest) = true
    · rw [rawSplit_cons_trigger p c rest h]
      simp
    · rw [rawSplit_cons_no p c rest h]
      exact consHead_ne_nil c _

theorem consHead_append (c : Char) (X Y : List (List Char)) (hX : X ≠ []) :
    consHead c (X ++ Y) = consHead c X ++ Y := by
  cases X with
  | nil => exact absurd rfl hX
  | cons h t => rfl

theorem rawSplit_headI_head? (p : Char → Bool) (l : List Char) :
    (rawSplit p l).headI.head? = l.head? := by
  cases l with
  | nil => simp [rawSplit_nil]
  | cons c rest =>
    by_cases h : (p c && wsHead rest) = true
    · rw [rawSplit_cons_trigger p c rest h]
      rfl
    · rw [rawSplit_cons_no p c rest h]
      cases hx : rawSplit p rest with
      | nil => exact absurd hx (rawSplit_ne_nil p rest)
      | cons a b => simp [consHead]

theorem dropWs_eq_nil (w : List Char) (hw : ∀ c ∈ w, isWsChar c = true) :
    dropWs w = [] :=
  List.dropWhile_eq_nil_iff.mpr hw

theorem dropWs_append_ws (w r : List Char) (hw : ∀ c ∈ w, isWsChar c = true) :
    dropWs (w ++ r) = dropWs r := by
  induction w with
  | nil => rfl
  | cons c cs ih =>
    rw [List.cons_append, dropWs, List.dropWhile_cons_of_pos (hw c (List.mem_cons_self _ _))]
    exact ih fun x hx => hw x (List.mem_cons_of_mem _ hx)

theorem dropWs_append_of_ne_nil (l r : List Char) (hl : dropWs l ≠ []) :
    dropWs (l ++ r) = dropWs l ++ r := by
  rw [dropWs, List.dropWhile_append, if_neg (by rw [List.isEmpty_iff]; exact hl)]
  rfl

theorem dropWs_of_wsHead_false (r : List Char) (h : wsHead r = false) :
    dropWs r = r := by
  cases r with
  | nil => rfl
  | cons c rest =>
    rw [dropWs, List.dropWhile_cons_of_neg]
    simp only [wsHead] at h
    simp [h]

theorem wsHead_dropWs_false (l : List Char) : wsHead (dropWs l) = false := by
  induction l with
  | nil => rfl
  | cons c rest ih =>
    by_cases hc : isWsChar c = true
    · rw [dropWs, List.dropWhile_cons_of_pos hc]
      exact ih
    · rw [dropWs, List.dropWhile_cons_of_neg (by simpa using hc)]
      show isWsChar c = false
      cases hb : isWsChar c
      · rfl
      · exact absurd hb hc

theorem rawSplit_ws_prepend (p : Char → Bool)
    (hwp : ∀ c, isWsChar c = true → p c = false) (w r : List Char)
    (hw : ∀ c ∈ w, isWsChar c = true) :
    rawSplit p (w ++ r) = (w ++ (rawSplit p r).headI) :: (rawSplit p r).tail := by
  induction w with
  | nil =>
    simp only [List.nil_append]
    cases hx : rawSplit p r with
    | nil => exact absurd hx (rawSplit_ne_nil p r)
    | cons a b => rfl
  | cons c cs ih =>
    have hc : isWsChar c = true := hw c (List.mem_cons_self _ _)
    rw [List.cons_append, rawSplit_cons_no p c (cs ++ r) (by simp [hwp c hc])]
    rw [ih fun x hx => hw x (List.mem_cons_of_mem _ hx)]
    rfl

theorem rawSplit_all_ws (p : Char → Bool)
    (hwp : ∀ c, isWsChar c = true → p c = false) (w : List Char)
    (hw : ∀ c ∈ w, isWsChar c = true) :
    rawSplit p w = [w] := by
  have := rawSplit_ws_prepend p hwp w [] hw
  rw [List.append_nil] at this
  rw [this, rawSplit_nil]
  simp

theorem dropWs_cons_of_ws (c : Char) (rest : List Char) (h : isWsChar c = true) :
    dropWs (c :: rest) = dropWs rest := by
  rw [dropWs, List.dropWhile_cons_of_pos h]
  rfl

theorem dropWs_length_le (l : List Char) : (dropWs l).length ≤ l.length :=
  (List.dropWhile_sublist isWsChar).length_le

/-- The raw refinement identity: since every `ps`-separator is a
`pc`-separator, re-splitting each raw `ps`-piece by `pc` and concatenating
reproduces the raw `pc`-split of the whole string. -/
theorem rawSplit_refines (ps pc : Char → Bool)
    (hsub : ∀ c, ps c = true → pc c = true)
    (hwps : ∀ c, isWsChar c = true → ps c = false) :
    ∀ n, ∀ l : List Char, l.length ≤ n →
      ((rawSplit ps l).map (rawSplit pc)).flatten = rawSplit pc l := by
  intro n
  induction n with
  | zero =>
    intro l hl
    have hnil : l = [] := List.length_eq_zero.mp (Nat.le_zero.mp hl)
    subst hnil
    rw [rawSplit_nil]
    simp [rawSplit_nil]
  | succ n ih =>
    intro l hl
    cases l with
    | nil =>
      rw [rawSplit_nil]
      simp [rawSplit_nil]
    | cons c rest =>
      by_cases hts : (ps c && wsHead rest) = true
      · have htc : (pc c && wsHead rest) = true := by
          obtain ⟨h1, h2⟩ : ps c = true ∧ wsHead rest = true := by simpa using hts
          simp [hsub c h1, h2]
        rw [rawSplit_cons_trigger ps c rest hts, rawSplit_cons_trigger pc c rest htc]
        rw [List.map_cons, List.flatten_cons]
        have h1 : rawSplit pc [c] = [[c]] := by
          rw [rawSplit_cons_no pc c [] (by simp [wsHead]), rawSplit_nil]
          rfl
        have hlen : (dropWs rest).length ≤ n := by
          have hle := (List.dropWhile_sublist (l := rest) isWsChar).length_le
          simp only [List.length_cons] at hl
          obtain ⟨-, h2⟩ : ps c = true ∧ wsHead rest = true := by simpa using hts
          cases rest with
          | nil => simp [wsHead] at h2
          | cons r0 rs =>
            simp only [wsHead] at h2
            rw [dropWs_cons_of_ws r0 rs h2]
            have := dropWs_length_le rs
            simp only [List.length_cons] at hl
            omega
        rw [h1, ih (dropWs rest) hlen]
        rfl
      · by_cases htc : (pc c && wsHead rest) = true
        · obtain ⟨hpcc, hwhr⟩ : pc c = true ∧ wsHead rest = true := by simpa using htc
          have hrest_eq : rest.takeWhile isWsChar ++ dropWs rest = rest :=
            List.takeWhile_append_dropWhile isWsChar rest
          have hwr : ∀ x ∈ rest.takeWhile isWsChar, isWsChar x = true :=
            fun x hx => List.mem_takeWhile_imp hx
          have hwrun_ne : rest.takeWhile isWsChar ≠ [] := by
            cases rest with
            | nil => simp [wsHead] at hwhr
            | cons r0 rs =>
              simp only [wsHead] at hwhr
              rw [List.takeWhile_cons_of_pos hwhr]
              simp
          rw [rawSplit_cons_no ps c rest hts]
          have hsplit := rawSplit_ws_prepend ps hwps (rest.takeWhile isWsChar) (dropWs rest) hwr
          rw [hrest_eq] at hsplit
          obtain ⟨q0, tr, hq⟩ : ∃ q0 tr, rawSplit ps (dropWs rest) = q0 :: tr := by
            cases hx : rawSplit ps (dropWs rest) with
            | nil => exact absurd hx (rawSplit_ne_nil ps (dropWs rest))
            | cons a b => exact ⟨a, b, rfl⟩
          rw [hq] at hsplit
          simp only [List.headI, List.tail_cons] at hsplit
          rw [hsplit]
          show (((c :: (rest.takeWhile isWsChar ++ q0)) :: tr).map (rawSplit pc)).flatten = _
          rw [List.map_cons, List.flatten_cons]
          have hfirstq : q0.head? = (dropWs rest).head? := by
            have := rawSplit_headI_head? ps (dropWs rest)
            rw [hq] at this
            simpa using this
          have hwsq : wsHead (rest.takeWhile isWsChar ++ q0) = true := by
            cases hx : rest.takeWhile isWsChar with
            | nil => exact absurd hx hwrun_ne
            | cons w0 ws2 =>
              simp only [List.cons_append, wsHead]
              exact hwr w0 (hx ▸ List.mem_cons_self _ _)
          rw [rawSplit_cons_trigger pc c _ (by simp [hpcc, hwsq])]
          have hdq : dropWs (rest.takeWhile isWsChar ++ q0) = q0 := by
            rw [dropWs_append_ws _ q0 hwr]
            apply dropWs_of_wsHead_false
            have hrf : wsHead (dropWs rest) = false := wsHead_dropWs_false rest
            cases q0 with
            | nil => rfl
            | cons a b =>
              cases hy : dropWs rest with
              | nil =>
                rw [hy] at hfirstq
                simp at hfirstq
              | cons x y =>
                rw [hy] at hfirstq hrf
                simp only [List.head?_cons, Option.some_inj] at hfirstq
                subst hfirstq
                exact hrf
          rw [hdq]
          have hlenr : (dropWs rest).length ≤ n := by
            cases rest with
            | nil => simp [wsHead] at hwhr
            | cons r0 rs =>
              simp only [wsHead] at hwhr
              rw [dropWs_cons_of_ws r0 rs hwhr]
              have := dropWs_length_le rs
              simp only [List.length_cons] at hl
              omega
          rw [rawSplit_cons_trigger pc c rest htc]
          rw [← ih (dropWs rest) hlenr, hq]
          rw [List.map_cons, List.flatten_cons]
          rfl
        · rw [rawSplit_cons_no ps c rest hts, rawSplit_cons_no pc c rest htc]
          obtain ⟨p0, t, hps0⟩ : ∃ p0 t, rawSplit ps rest = p0 :: t := by
            cases hx : rawSplit ps rest with
            | nil => exact absurd hx (rawSplit_ne_nil ps rest)
            | cons a b => exact ⟨a, b, rfl⟩
          rw [hps0]
          show (((c :: p0) :: t).map (rawSplit pc)).flatten = _
          rw [List.map_cons, List.flatten_cons]
          have hhead : p0.head? = rest.head? := by
            have := rawSplit_headI_head? ps rest
            rw [hps0] at this
            simpa using this
          have hnc : ¬((pc c && wsHead p0) = true) := by
            intro hcon
            obtain ⟨h1, h2⟩ : pc c = true ∧ wsHead p0 = true := by simpa using hcon
            apply htc
            cases p0 with
            | nil => simp [wsHead] at h2
            | cons a b =>
              cases rest with
              | nil => simp at hhead
              | cons x y =>
                simp only [List.head?_cons, Option.some_inj] at hhead
                subst hhead
                simp only [wsHead] at h2 ⊢
                simp [h1, h2]
          rw [rawSplit_cons_no pc c p0 hnc]
          rw [← consHead_append c (rawSplit pc p0) _ (rawSplit_ne_nil pc p0)]
          congr 1
          have hflat : rawSplit pc p0 ++ (t.map (rawSplit pc)).flatten =
              (((p0 :: t) : List (List Char)).map (rawSplit pc)).flatten := by
            rw [List.map_cons, List.flatten_cons]
          rw [hflat, ← hps0]
          refine ih rest ?_
          simp only [List.length_cons] at hl
          omega

theorem sentencePunct_subset_clausePunct (c : Char) (h : isSentencePunct c = true) :
    isClausePunct c = true := by
  simp only [isSentencePunct, Bool.or_eq_true, beq_iff_eq] at h
  rcases h with (h | h) | h <;> subst h <;> rfl

theorem ws_not_sentencePunct (c : Char) (h : isWsChar c = true) :
    isSentencePunct c = false := by
  simp only [isWsChar, Bool.or_eq_true, beq_iff_eq] at h
  rcases h with ((((h | h) | h) | h) | h) | h <;> subst h <;> rfl

theorem ws_not_clausePunct (c : Char) (h : isWsChar c = true) :
    isClausePunct c = false := by
  simp only [isWsChar, Bool.or_eq_true, beq_iff_eq] at h
  rcases h with ((((h | h) | h) | h) | h) | h <;> subst h <;> rfl

theorem trimChars_ws_append (w h : List Char) (hw : ∀ c ∈ w, isWsChar c = true) :
    trimChars (w ++ h) = trimChars h := by
  show trimLeft (trimRight (w ++ h)) = trimLeft (trimRight h)
  unfold trimRight
  rw [List.reverse_append, List.dropWhile_append]
  by_cases hh : (h.reverse.dropWhile isWsChar).isEmpty = true
  · rw [if_pos hh]
    rw [List.isEmpty_iff] at hh
    rw [hh]
    have hsub : ∀ c ∈ (w.reverse.dropWhile isWsChar).reverse, isWsChar c = true := by
      intro c hc
      rw [List.mem_reverse] at hc
      exact hw c (List.mem_reverse.mp ((List.dropWhile_sublist isWsChar).subset hc))
    show dropWs _ = dropWs _
    rw [dropWs_eq_nil _ hsub]
    rfl
  · rw [if_neg hh, List.reverse_append, List.reverse_reverse]
    show dropWs (w ++ (h.reverse.dropWhile isWsChar).reverse) = _
    rw [dropWs_append_ws w _ hw]
    rfl

theorem trimRight_append_ws (h w : List Char) (hw : ∀ c ∈ w, isWsChar c = true) :
    trimRight (h ++ w) = trimRight h := by
  unfold trimRight
  rw [List.reverse_append]
  rw [show List.dropWhile isWsChar (w.reverse ++ h.reverse) =
      List.dropWhile isWsChar h.reverse from
    dropWs_append_ws w.reverse h.reverse fun c hc => hw c (List.mem_reverse.mp hc)]

theorem trimChars_append_ws (h w : List Char) (hw : ∀ c ∈ w, isWsChar c = true) :
    trimChars (h ++ w) = trimChars h := by
  show trimLeft (trimRight (h ++ w)) = trimLeft (trimRight h)
  rw [trimRight_append_ws h w hw]

theorem trimChars_eq_nil_of_ws (w : List Char) (hw : ∀ c ∈ w, isWsChar c = true) :
    trimChars w = [] := by
  have := trimChars_ws_append w [] hw
  rw [List.append_nil] at this
  rw [this]
  rfl

theorem trimRight_decomp (u : List Char) :
    u = trimRight u ++ (u.reverse.takeWhile isWsChar).reverse := by
  conv_lhs => rw [← List.reverse_reverse u,
    ← List.takeWhile_append_dropWhile isWsChar u.reverse]
  rw [List.reverse_append]
  rfl

theorem trimRight_suffix_ws (u : List Char) :
    ∀ c ∈ (u.reverse.takeWhile isWsChar).reverse, isWsChar c = true := by
  intro c hc
  rw [List.mem_reverse] at hc
  exact List.mem_takeWhile_imp hc

theorem trimRight_getLast?_not_ws (u : List Char) (q : Char)
    (hq : (trimRight u).getLast? = some q) : isWsChar q = false := by
  unfold trimRight at hq
  rw [List.getLast?_reverse] at hq
  have hfalse := wsHead_dropWs_false u.reverse
  cases hx : dropWs u.reverse with
  | nil =>
    rw [show List.dropWhile isWsChar u.reverse = dropWs u.reverse from rfl, hx] at hq
    simp at hq
  | cons a b =>
    rw [show List.dropWhile isWsChar u.reverse = dropWs u.reverse from rfl, hx] at hq
    simp only [List.head?_cons, Option.some_inj] at hq
    subst hq
    rw [hx] at hfalse
    exact hfalse

theorem extLast_cons_of_ne_nil (w : List Char) (a : List Char) (X : List (List Char))
    (hX : X ≠ []) : extLast w (a :: X) = a :: extLast w X := by
  cases X with
  | nil => exact absurd rfl hX
  | cons b Y => rfl

theorem consHead_extLast (c : Char) (w : List Char) (X : List (List Char)) (hX : X ≠ []) :
    consHead c (extLast w X) = extLast w (consHead c X) := by
  cases X with
  | nil => exact absurd rfl hX
  | cons x xs =>
    cases xs with
    | nil => rfl
    | cons y ys => rfl

theorem cleanup_append (X Y : List (List Char)) :
    cleanup (X ++ Y) = cleanup X ++ cleanup Y := by
  simp [cleanup]

theorem cleanup_cons (x : List Char) (X : List (List Char)) :
    cleanup (x :: X) =
      (if (trimChars x).isEmpty = true then [] else [trimChars x]) ++ cleanup X := by
  unfold cleanup
  rw [List.map_cons, List.filter_cons]
  by_cases hx : (trimChars x).isEmpty = true
  · rw [if_pos hx]
    rw [if_neg (by simp [hx])]
    rfl
  · rw [if_neg hx]
    rw [if_pos (by simp [Bool.not_eq_true] at hx ⊢; exact hx)]
    rfl

theorem cleanup_empty_piece : cleanup [([] : List Char)] = [] := rfl

theorem cleanup_extLast (w : List Char) (X : List (List Char))
    (hw : ∀ c ∈ w, isWsChar c = true) (hX : X ≠ []) :
    cleanup (extLast w X) = cleanup X := by
  induction X with
  | nil => exact absurd rfl hX
  | cons x xs ih =>
    cases xs with
    | nil =>
      show cleanup [x ++ w] = cleanup [x]
      rw [cleanup_cons, cleanup_cons, trimChars_append_ws x w hw]
    | cons y ys =>
      rw [extLast_cons_of_ne_nil w x (y :: ys) (by simp)]
      rw [cleanup_cons, cleanup_cons, ih (by simp)]

theorem cleanup_flatten (X : List (List (List Char))) :
    cleanup X.flatten = (X.map cleanup).flatten := by
  induction X with
  | nil => rfl
  | cons a b ih =>
    rw [List.flatten_cons, cleanup_append, ih, List.map_cons, List.flatten_cons]

theorem flatten_map_filter_ne_nil (g : List Char → List (List Char))
    (hg : g [] = []) (l : List (List Char)) :
    (((l.filter (fun x => !x.isEmpty)).map g)).flatten = (l.map g).flatten := by
  induction l with
  | nil => rfl
  | cons x xs ih =>
    rw [List.filter_cons]
    by_cases hx : (!x.isEmpty) = true
    · rw [if_pos hx, List.map_cons, List.flatten_cons, List.map_cons, List.flatten_cons, ih]
    · rw [if_neg hx]
      have hxnil : x = [] := by
        simp only [Bool.not_eq_true'] at hx
        simpa [List.isEmpty_iff] using hx
      rw [List.map_cons, List.flatten_cons, hxnil, hg, ih]
      rfl

theorem wsHead_append_of_ne_nil (l r : List Char) (hl : l ≠ []) :
    wsHead (l ++ r) = wsHead l := by
  cases l with
  | nil => exact absurd rfl hl
  | cons a b => rfl

theorem getLast?_mem_self (l : List Char) (q : Char) (h : l.getLast? = some q) : q ∈ l := by
  obtain ⟨ys, rfl⟩ := List.getLast?_eq_some_iff.mp h
  simp

theorem dropWs_ne_nil_of_getLast (l : List Char) (q : Char)
    (hq : l.getLast? = some q) (hws : isWsChar q = false) : dropWs l ≠ [] := by
  intro hnil
  have := List.dropWhile_eq_nil_iff.mp hnil q (getLast?_mem_self l q hq)
  rw [hws] at this
  exact Bool.noConfusion this

theorem getLast?_dropWs (l : List Char) (q : Char)
    (hq : l.getLast? = some q) (hne : dropWs l ≠ []) :
    (dropWs l).getLast? = some q := by
  rw [← List.takeWhile_append_dropWhile isWsChar l, List.getLast?_append] at hq
  cases hx : (dropWs l).getLast? with
  | none =>
    have := List.getLast?_isSome.mpr hne
    rw [hx] at this
    simp at this
  | some x =>
    rw [show (List.dropWhile isWsChar l).getLast? = (dropWs l).getLast? from rfl, hx] at hq
    simpa using hq

theorem rawSplit_append_ws_punct (p : Char → Bool)
    (hwp : ∀ c, isWsChar c = true → p c = false) :
    ∀ n, ∀ core w q, core.length ≤ n → core ≠ [] → core.getLast? = some q →
      p q = true → w ≠ [] → (∀ c ∈ w, isWsChar c = true) →
      rawSplit p (core ++ w) = rawSplit p core ++ [[]] := by
  intro n
  induction n with
  | zero =>
    intro core w q hl hne
    exact absurd (List.length_eq_zero.mp (Nat.le_zero.mp hl)) hne
  | succ n ih =>
    intro core w q hl hne hlast hpq hwne hw
    cases core with
    | nil => exact absurd rfl hne
    | cons c core2 =>
      cases core2 with
      | nil =>
        have hqc : q = c := by simpa using hlast.symm
        subst hqc
        have hwh : wsHead w = true := by
          cases w with
          | nil => exact absurd rfl hwne
          | cons w0 ws2 => exact hw w0 (List.mem_cons_self _ _)
        rw [List.cons_append, List.nil_append]
        rw [rawSplit_cons_trigger p q w (by simp [hpq, hwh])]
        rw [dropWs_eq_nil w hw, rawSplit_nil]
        rw [rawSplit_cons_no p q [] (by simp [wsHead]), rawSplit_nil]
        rfl
      | cons c2 core3 =>
        have hlast2 : (c2 :: core3).getLast? = some q := by
          rw [List.getLast?_cons_cons] at hlast
          exact hlast
        have hqnws : isWsChar q = false := by
          cases hb : isWsChar q
          · rfl
          · have hcontr := hwp q hb
            rw [hpq] at hcontr
            exact Bool.noConfusion hcontr
        have hcne : (c2 :: core3) ≠ [] := by simp
        have hlen2 : (c2 :: core3).length ≤ n := by
          simp only [List.length_cons] at hl ⊢
          omega
        by_cases htrig : (p c && wsHead (c2 :: core3)) = true
        · have hwhcw : wsHead ((c2 :: core3) ++ w) = wsHead (c2 :: core3) :=
            wsHead_append_of_ne_nil _ w hcne
          rw [List.cons_append, rawSplit_cons_trigger p c ((c2 :: core3) ++ w) (by
            obtain ⟨h1, h2⟩ : p c = true ∧ wsHead (c2 :: core3) = true := by simpa using htrig
            rw [hwhcw]
            simp [h1, h2])]
          rw [rawSplit_cons_trigger p c (c2 :: core3) htrig]
          have hdne : dropWs (c2 :: core3) ≠ [] :=
            dropWs_ne_nil_of_getLast _ q hlast2 hqnws
          rw [dropWs_append_of_ne_nil (c2 :: core3) w hdne]
          have hdlast : (dropWs (c2 :: core3)).getLast? = some q :=
            getLast?_dropWs _ q hlast2 hdne
          have hdlen : (dropWs (c2 :: core3)).length ≤ n :=
            le_trans (dropWs_length_le _) hlen2
          rw [ih (dropWs (c2 :: core3)) w q hdlen hdne hdlast hpq hwne hw]
          rfl
        · rw [List.cons_append, rawSplit_cons_no p c ((c2 :: core3) ++ w) (by
            rw [wsHead_append_of_ne_nil _ w hcne]
            exact htrig)]
          rw [rawSplit_cons_no p c (c2 :: core3) htrig]
          rw [ih (c2 :: core3) w q hlen2 hcne hlast2 hpq hwne hw]
          exact consHead_append c _ _ (rawSplit_ne_nil p (c2 :: core3))

theorem rawSplit_append_ws_nonpunct (p : Char → Bool)
    (hwp : ∀ c, isWsChar c = true → p c = false) :
    ∀ n, ∀ core w q, core.length ≤ n → core ≠ [] → core.getLast? = some q →
      p q = false → isWsChar q = false → w ≠ [] → (∀ c ∈ w, isWsChar c = true) →
      rawSplit p (core ++ w) = extLast w (rawSplit p core) := by
  intro n
  induction n with
  | zero =>
    intro core w q hl hne
    exact absurd (List.length_eq_zero.mp (Nat.le_zero.mp hl)) hne
  | succ n ih =>
    intro core w q hl hne hlast hpq hqnws hwne hw
    cases core with
    | nil => exact absurd rfl hne
    | cons c core2 =>
      cases core2 with
      | nil =>
        have hqc : q = c := by simpa using hlast.symm
        subst hqc
        rw [List.cons_append, List.nil_append]
        rw [rawSplit_cons_no p q w (by simp [hpq])]
        rw [rawSplit_all_ws p hwp w hw]
        rw [rawSplit_cons_no p q [] (by simp [wsHead]), rawSplit_nil]
        rfl
      | cons c2 core3 =>
        have hlast2 : (c2 :: core3).getLast? = some q := by
          rw [List.getLast?_cons_cons] at hlast
          exact hlast
        have hcne : (c2 :: core3) ≠ [] := by simp
        have hlen2 : (c2 :: core3).length ≤ n := by
          simp only [List.length_cons] at hl ⊢
          omega
        by_cases htrig : (p c && wsHead (c2 :: core3)) = true
        · have hwhcw : wsHead ((c2 :: core3) ++ w) = wsHead (c2 :: core3) :=
            wsHead_append_of_ne_nil _ w hcne
          rw [List.cons_append, rawSplit_cons_trigger p c ((c2 :: core3) ++ w) (by
            obtain ⟨h1, h2⟩ : p c = true ∧ wsHead (c2 :: core3) = true := by simpa using htrig
            rw [hwhcw]
            simp [h1, h2])]
          rw [rawSplit_cons_trigger p c (c2 :: core3) htrig]
          have hdne : dropWs (c2 :: core3) ≠ [] :=
            dropWs_ne_nil_of_getLast _ q hlast2 hqnws
          rw [dropWs_append_of_ne_nil (c2 :: core3) w hdne]
          have hdlast : (dropWs (c2 :: core3)).getLast? = some q :=
            getLast?_dropWs _ q hlast2 hdne
          have hdlen : (dropWs (c2 :: core3)).length ≤ n :=
            le_trans (dropWs_length_le _) hlen2
          rw [ih (dropWs (c2 :: core3)) w q hdlen hdne hdlast hpq hqnws hwne hw]
          rw [extLast_cons_of_ne_nil w [c] _ (rawSplit_ne_nil p (dropWs (c2 :: core3)))]
        · rw [List.cons_append, rawSplit_cons_no p c ((c2 :: core3) ++ w) (by
            rw [wsHead_append_of_ne_nil _ w hcne]
            exact htrig)]
          rw [rawSplit_cons_no p c (c2 :: core3) htrig]
          rw [ih (c2 :: core3) w q hlen2 hcne hlast2 hpq hqnws hwne hw]
          exact consHead_extLast c w _ (rawSplit_ne_nil p (c2 :: core3))

theorem cleanup_rawSplit_trimRight (p : Char → Bool)
    (hwp : ∀ c, isWsChar c = true → p c = false) (u : List Char) :
    cleanup (rawSplit p (trimRight u)) = cleanup (rawSplit p u) := by
  have hdecomp := trimRight_decomp u
  have hws := trimRight_suffix_ws u
  by_cases hw0 : (u.reverse.takeWhile isWsChar).reverse = []
  · rw [hw0, List.append_nil] at hdecomp
    rw [← hdecomp]
  · by_cases hc0 : trimRight u = []
    · rw [hc0, List.nil_append] at hdecomp
      rw [hc0, rawSplit_nil]
      conv_rhs => rw [hdecomp]
      rw [rawSplit_all_ws p hwp _ hws]
      rw [show cleanup [([] : List Char)] = [] from rfl]
      rw [cleanup_cons]
      rw [if_pos (by rw [trimChars_eq_nil_of_ws _ hws]; rfl)]
      rfl
    · obtain ⟨q, hq⟩ : ∃ q, (trimRight u).getLast? = some q := by
        cases hx : (trimRight u).getLast? with
        | none =>
          have := List.getLast?_isSome.mpr hc0
          rw [hx] at this
          simp at this
        | some x => exact ⟨x, rfl⟩
      have hqws : isWsChar q = false := trimRight_getLast?_not_ws u q hq
      conv_rhs => rw [hdecomp]
      by_cases hpq : p q = true
      · rw [rawSplit_append_ws_punct p hwp (trimRight u).length (trimRight u)
          ((u.reverse.takeWhile isWsChar).reverse) q le_rfl hc0 hq hpq hw0 hws]
        rw [cleanup_append]
        rw [show cleanup [([] : List Char)] = [] from rfl, List.append_nil]
      · have hpq2 : p q = false := by
          cases hb : p q
          · rfl
          · exact absurd hb hpq
        rw [rawSplit_append_ws_nonpunct p hwp (trimRight u).length (trimRight u)
          ((u.reverse.takeWhile isWsChar).reverse) q le_rfl hc0 hq hpq2 hqws hw0 hws]
        rw [cleanup_extLast _ _ hws (rawSplit_ne_nil p (trimRight u))]

theorem cleanup_rawSplit_trimLeft (p : Char → Bool)
    (hwp : ∀ c, isWsChar c = true → p c = false) (u : List Char) :
    cleanup (rawSplit p (trimLeft u)) = cleanup (rawSplit p u) := by
  have hdecomp : u.takeWhile isWsChar ++ trimLeft u = u :=
    List.takeWhile_append_dropWhile isWsChar u
  have hws : ∀ c ∈ u.takeWhile isWsChar, isWsChar c = true :=
    fun c hc => List.mem_takeWhile_imp hc
  conv_rhs => rw [← hdecomp]
  rw [rawSplit_ws_prepend p hwp _ _ hws]
  obtain ⟨x0, xt, hx⟩ : ∃ x0 xt, rawSplit p (trimLeft u) = x0 :: xt := by
    cases hy : rawSplit p (trimLeft u) with
    | nil => exact absurd hy (rawSplit_ne_nil p (trimLeft u))
    | cons a b => exact ⟨a, b, rfl⟩
  rw [hx]
  simp only [List.headI, List.tail_cons]
  rw [cleanup_cons, cleanup_cons, trimChars_ws_append _ _ hws]

theorem cleanup_rawSplit_trim (p : Char → Bool)
    (hwp : ∀ c, isWsChar c = true → p c = false) (u : List Char) :
    cleanup (rawSplit p (trimChars u)) = cleanup (rawSplit p u) := by
  show cleanup (rawSplit p (trimLeft (trimRight u))) = _
  rw [cleanup_rawSplit_trimLeft p hwp (trimRight u), cleanup_rawSplit_trimRight p hwp u]

theorem flatten_map_map_mk (g : List Char → List (List Char)) (X : List (List Char)) :
    (X.map (fun piece => (g piece).map String.mk)).flatten =
      ((X.map g).flatten).map String.mk := by
  induction X with
  | nil => rfl
  | cons a b ih => simp [ih]

theorem flatten_map_cleanup (g : List Char → List (List Char)) (hg : g [] = [])
    (hgt : ∀ piece, g (trimChars piece) = g piece) (P : List (List Char)) :
    ((cleanup P).map g).flatten = (P.map g).flatten := by
  induction P with
  | nil => rfl
  | cons x xs ih =>
    rw [cleanup_cons, List.map_append, List.flatten_append, ih,
      List.map_cons, List.flatten_cons]
    by_cases hx : (trimChars x).isEmpty = true
    · rw [if_pos hx]
      have hxnil : trimChars x = [] := by simpa [List.isEmpty_iff] using hx
      rw [← hgt x, hxnil, hg]
      rfl
    · rw [if_neg hx]
      rw [show (([trimChars x] : List (List Char)).map g).flatten = g (trimChars x) by simp]
      rw [hgt x]

/-- C10: concatenating, in sentence order, the clause lists obtained by
applying `getClausesForSentence` to each sentence of `splitIntoSentences s`
yields exactly `splitIntoClauses s` — the coherence the caption display
relies on when it assigns global clause indices per sentence and compares
them against the active clause index computed from the whole script. -/
theorem C10_sentence_clause_coherence (s : String) :
    ((splitIntoSentences s).map getClausesForSentence).flatten = splitIntoClauses s := by
  unfold splitIntoSentences splitIntoClauses getClausesForSentence
  rw [List.map_map]
  show ((cleanup (rawSplit isSentencePunct s.toList)).map
      (fun piece => (cleanup (rawSplit isClausePunct piece)).map String.mk)).flatten = _
  rw [flatten_map_map_mk]
  refine congrArg (List.map String.mk) ?_
  show ((cleanup (rawSplit isSentencePunct s.toList)).map
      (fun piece => cleanup (rawSplit isClausePunct piece))).flatten = _
  rw [flatten_map_cleanup (fun piece => cleanup (rawSplit isClausePunct piece))
    (by show cleanup (rawSplit isClausePunct []) = []; rw [rawSplit_nil]; rfl)
    (fun piece => cleanup_rawSplit_trim isClausePunct ws_not_clausePunct piece)]
  rw [show (fun piece => cleanup (rawSplit isClausePunct piece)) =
      (cleanup ∘ rawSplit isClausePunct) from rfl]
  rw [← List.map_map]
  rw [← cleanup_flatten]
  rw [rawSplit_refines isSentencePunct isClausePunct sentencePunct_subset_clausePunct
    ws_not_sentencePunct s.toList.length s.toList le_rfl]

end Ditt
